import Mathlib

set_option maxRecDepth 16384

/-!
Verification of the bitflag name-encoding/decoding engine of `cmd/stringer/bitflag.go`:
the run partitioner (`splitIntoBitflagRuns`), the name table builder (`nameAndRest`),
the shared-descriptor decode routine (`_stringerBitflag.mstring`), the per-type
specialized decode routines (`stringBitflagCode` / `stringBitflagCodeWithSkips`
templates) and the bounded memoizing cache (`_stringerBitflagCache.mstring`).

Machine integers (Go `uint64`, `uint8`) are modelled as `Nat` with explicit `% 2 ^ w`
at each operation where Go wraps.  Go strings are modelled as `List Char`
(`String.data`) where slicing arithmetic matters.  Code that can panic
(out-of-range slice or index) or call `os.Exit` is modelled as `Option` / `Except`:
`none` / `.error` marks the aborting execution.
-/

namespace Bitflag

/-- Wrap-around modulus of Go `uint64` arithmetic. -/
def U64 : Nat := 2 ^ 64

/-- One constant from the generator's input (cmd/stringer `Value`): the constant's
name and its numeric value.  `splitIntoBitflagRuns` starts by dropping the sign
(`values[i].signed = false`), so the value is modelled directly as the unsigned
64-bit magnitude. -/
structure Value where
  name : String
  value : Nat
deriving DecidableEq, Repr

/-- Function `singleBitSet` from bitflag.go: true when one and only one bit is set in `v`. -/
def singleBitSet (v : Nat) : Bool :=
  v != 0 && v &&& (v - 1) == 0

/-- Stable insertion of a value into a list already sorted ascending by `value`:
the inserted element goes in front of later elements with an equal value. -/
def insertByValue (x : Value) : List Value → List Value
  | [] => [x]
  | y :: ys => if x.value ≤ y.value then x :: y :: ys else y :: insertByValue x ys

/-- Model of `sort.Stable(byValue(values))` in `splitIntoBitflagRuns`: ascending by value,
stable, so among equal values the one declared first stays first.  A stable sort's
output is uniquely determined by the key order, so this insertion sort computes
the same list as Go's `sort.Stable`. -/
def sortByValue : List Value → List Value
  | [] => []
  | x :: xs => insertByValue x (sortByValue xs)

/-- The duplicate/multi-bit removal loop of `splitIntoBitflagRuns`
(`j := 1; for i := 1; ...`): each element (from index 1 on) is kept iff its value
differs from its predecessor in the sorted order and has a single bit set.
The element at index 0 is kept unconditionally (the loop starts at `i = 1`);
reads of `values[i-1]` always see the original sorted element because the
in-place compaction never overwrites index `i-1` before iteration `i`. -/
def removeDupAux (prev : Value) : List Value → List Value
  | [] => []
  | v :: rest =>
    if v.value ≠ prev.value ∧ singleBitSet v.value then v :: removeDupAux v rest
    else removeDupAux v rest

/-- The run-chunking loop of `splitIntoBitflagRuns`: `cur` accumulates (reversed)
the run being built, which started such that `cur`'s head is the most recently
taken element `prev`; a new run starts whenever the next value is not
`prev.value << 1` (64-bit wrap included). -/
def runsAux (prev : Value) (cur : List Value) : List Value → List (List Value)
  | [] => [cur.reverse]
  | v :: rest =>
    if v.value = (prev.value * 2) % U64 then runsAux v (v :: cur) rest
    else cur.reverse :: runsAux v [v] rest

/-- Partition of the surviving values into maximal runs of consecutive
(value-doubling) entries, as in the trailing loop of `splitIntoBitflagRuns`. -/
def runsOf : List Value → List (List Value)
  | [] => []
  | v :: rest => runsAux v [v] rest

/-- Function `splitIntoBitflagRuns(values)`: sorts (stable, by value), takes the first
zero-valued element as zero-name candidate while stripping all leading zeros,
removes duplicates and (except for the unchecked first element) multi-bit values,
then chunks into runs.  `none` models the two panics of the Go code: the input
slice being empty (`values[0]` on an empty slice) and every value being zero
(the stripping loop reads `values[0]` past the end). -/
def splitIntoBitflagRuns (values : List Value) : Option (Option Value × List (List Value)) :=
  match sortByValue values with
  | [] => none
  | v0 :: rest =>
    if v0.value = 0 then
      match (v0 :: rest).dropWhile (fun v => v.value = 0) with
      | [] => none
      | w0 :: wrest => some (some v0, runsOf (w0 :: removeDupAux w0 wrest))
    else some (none, runsOf (v0 :: removeDupAux v0 rest))

/-- The flags that survive the partitioner, in table order (the concatenation of
its runs); empty when the partitioner panics. -/
def survivorsOf (values : List Value) : List Value :=
  match splitIntoBitflagRuns values with
  | some (_, runs) => runs.flatten
  | none => []

/-- Body of `shiftCount(prev, next)`: number of doublings of `prev` (with 64-bit
wrap) needed to meet or exceed `next`, computed with explicit fuel.  The Go loop
is unbounded; on every input reachable from the partitioner (`1 ≤ prev`,
`next ≤ 2^63`) it performs at most 63 iterations, so fuel 64 is exact there. -/
def shiftCountAux : Nat → Nat → Nat → Nat
  | 0, _, _ => 0
  | fuel + 1, prev, next =>
    if prev < next then shiftCountAux fuel ((prev * 2) % U64) next + 1 else 0

/-- Function `shiftCount` from bitflag.go (see `shiftCountAux` for the fuel). -/
def shiftCount (prev next : Nat) : Nat := shiftCountAux 64 prev next

/-- Go's `runLastValue(run)`, i.e. `run[len(run)-1]`; runs are never empty, the
default covers the unreachable empty case. -/
def runLastD (run : List Value) : Value := run.getLastD ⟨"", 0⟩

/-- Go's `run[0]`; runs are never empty, the default covers the unreachable case. -/
def runHeadD (run : List Value) : Value := run.headD ⟨"", 0⟩

/-- Byte lengths of the names of one run (one `offsets` entry per flag). -/
def runOffsets (run : List Value) : List Nat := run.map (fun v => v.name.length)

/-- Concatenated names of one run. -/
def runNames (run : List Value) : List Char := (run.map (fun v => v.name.data)).flatten

/-- The accumulation loop of `nameAndRest`: for each run append its names and
name lengths; between consecutive runs append the gap's skip count
(`shiftCount(lastOfRun, firstOfNext) - 1`) to `skips` and a `0` sentinel to
`offsets`.  Written as structural recursion over the run list; it produces the
same three sequences as the Go `for r, run := range runs` loop. -/
def nameAndRestAux : List (List Value) → List Char × List Nat × List Nat
  | [] => ([], [], [])
  | [run] => (runNames run, runOffsets run, [])
  | run :: next :: rest =>
    let p := nameAndRestAux (next :: rest)
    (runNames run ++ p.1,
     runOffsets run ++ 0 :: p.2.1,
     (shiftCount (runLastD run).value (runHeadD next).value - 1) :: p.2.2)

/-- Function `nameAndRest(runs)`: builds blob, offsets and skips; any flag name longer
than 255 bytes makes the Go code print to stderr and call `os.Exit(1)`,
modelled as `.error ()` (the process dies, no table is produced). -/
def nameAndRest (runs : List (List Value)) :
    Except Unit (List Char × List Nat × List Nat) :=
  if runs.flatten.all (fun v => v.name.length ≤ 255) then .ok (nameAndRestAux runs)
  else .error ()

/-- The serialized artifact `_stringerBitflag` of the table-driven output:
type name, zero-mask display string, name blob, offsets (a `[]uint8`: every
entry the builder stores is at most 255), skips and the first flag's value. -/
structure Table where
  typename : List Char
  zero : List Char
  names : List Char
  offsets : List Nat
  skips : List Nat
  first : Nat
deriving DecidableEq, Repr

/-- One hexadecimal digit as produced by Go's `strconv.FormatUint(_, 16)`. -/
def hexDigit (n : Nat) : Char :=
  if n < 10 then Char.ofNat (48 + n) else Char.ofNat (87 + n)

/-- Digit loop of `strconv.FormatUint(n, 16)`, with structural fuel: each step
divides by 16, so fuel `n + 1` always suffices (the fuel-out branch is
unreachable). -/
def hexCharsAux : Nat → Nat → List Char
  | 0, _ => []
  | fuel + 1, n =>
    if n < 16 then [hexDigit n]
    else hexCharsAux fuel (n / 16) ++ [hexDigit (n % 16)]

/-- Go's `strconv.FormatUint(n, 16)`: lowercase hex digits, no leading zeros,
`"0"` for zero. -/
def hexChars (n : Nat) : List Char := hexCharsAux (n + 1) n

/-- The numeric fallback `typename + "(0x" + strconv.FormatUint(m, 16) + ")"`
shared by every decode routine. -/
def hexFallback (tn : List Char) (m : Nat) : List Char :=
  tn ++ '(' :: '0' :: 'x' :: (hexChars m ++ [')'])

/-- The decode loop of `_stringerBitflag.mstring` (the shared-descriptor
routine).  State per iteration: remaining `offsets`, remaining `skips`
(consuming the list models the `si` index), the blob cursor `p1`, the candidate
bit `v` and the residual mask `m`, plus the output accumulator `b`.  A `0`
offset is a gap sentinel: `v <<= skips[si] - 1` in `uint8` arithmetic
(`(k + 255) % 256` models the wrap of `k - 1`), and reading past the end of
`skips` is the Go index panic, modelled as `none`.  A non-zero offset `o`
advances `p0/p1`; on a match (`v&m ≠ 0`) the slice `names[p0:p1]` panics when
`p1` exceeds the blob length, modelled as `none`.  Every `v` update takes the
64-bit wrap `% U64`; the per-iteration `v <<= 1` is applied before each
recursive call. -/
def mstringLoop (tn : List Char) (blob : List Char) :
    List Nat → List Nat → Nat → Nat → Nat → List Char → Option (List Char)
  | [], _, _, _, m, b =>
    if b = [] then some (hexFallback tn m)
    else some (b ++ '|' :: (hexFallback tn m ++ [')']))
  | o :: offs, sks, p1, v, m, b =>
    if o = 0 then
      match sks with
      | [] => none
      | k :: ks =>
        mstringLoop tn blob offs ks p1 ((v * 2 ^ ((k + 255) % 256)) % U64 * 2 % U64) m b
    else
      let p0 := p1
      let p1' := p1 + o
      if v &&& m = 0 then mstringLoop tn blob offs sks p1' (v * 2 % U64) m b
      else
        let m' := m ^^^ v
        if p1' ≤ blob.length then
          let nm := (blob.drop p0).take o
          if b = [] then
            if m' = 0 then some nm
            else mstringLoop tn blob offs sks p1' (v * 2 % U64) m' ('(' :: nm)
          else
            if m' = 0 then some (b ++ '|' :: (nm ++ [')']))
            else mstringLoop tn blob offs sks p1' (v * 2 % U64) m' (b ++ '|' :: nm)
        else none

/-- Method `_stringerBitflag.mstring(m)`: zero mask short-circuits to the zero name,
otherwise the decode loop runs over the whole offsets sequence starting from
`v = first`. -/
def Table.mstring (sb : Table) (m : Nat) : Option (List Char) :=
  if m = 0 then some sb.zero
  else mstringLoop sb.typename sb.names sb.offsets sb.skips 0 sb.first m []

/-- The decode loop of the per-type specialized `String` method for tables with
gaps (the `stringBitflagCodeWithSkips` template, with `_T_name`, `_T_offset`,
`_T_skips` and the literal `"T(0x"` substituted by the generator).  Its body is
the body of `_stringerBitflag.mstring`'s loop with the descriptor fields
replaced by the per-type declarations; it is translated here separately from
its own template text. -/
def withSkipsLoop (tn : List Char) (blob : List Char) :
    List Nat → List Nat → Nat → Nat → Nat → List Char → Option (List Char)
  | [], _, _, _, m, b =>
    if b = [] then some (hexFallback tn m)
    else some (b ++ '|' :: (hexFallback tn m ++ [')']))
  | o :: offs, sks, p1, v, m, b =>
    if o = 0 then
      match sks with
      | [] => none
      | k :: ks =>
        withSkipsLoop tn blob offs ks p1 ((v * 2 ^ ((k + 255) % 256)) % U64 * 2 % U64) m b
    else
      let p0 := p1
      let p1' := p1 + o
      if v &&& m = 0 then withSkipsLoop tn blob offs sks p1' (v * 2 % U64) m b
      else
        let m' := m ^^^ v
        if p1' ≤ blob.length then
          let nm := (blob.drop p0).take o
          if b = [] then
            if m' = 0 then some nm
            else withSkipsLoop tn blob offs sks p1' (v * 2 % U64) m' ('(' :: nm)
          else
            if m' = 0 then some (b ++ '|' :: (nm ++ [')']))
            else withSkipsLoop tn blob offs sks p1' (v * 2 % U64) m' (b ++ '|' :: nm)
        else none

/-- The decode loop of the per-type specialized `String` method for gap-free
tables (the `stringBitflagCode` template): same walk but with no gap branch at
all — every offset entry is treated as a name length. -/
def noSkipsLoop (tn : List Char) (blob : List Char) :
    List Nat → Nat → Nat → Nat → List Char → Option (List Char)
  | [], _, _, m, b =>
    if b = [] then some (hexFallback tn m)
    else some (b ++ '|' :: (hexFallback tn m ++ [')']))
  | o :: offs, p1, v, m, b =>
    let p0 := p1
    let p1' := p1 + o
    if v &&& m = 0 then noSkipsLoop tn blob offs p1' (v * 2 % U64) m b
    else
      let m' := m ^^^ v
      if p1' ≤ blob.length then
        let nm := (blob.drop p0).take o
        if b = [] then
          if m' = 0 then some nm
          else noSkipsLoop tn blob offs p1' (v * 2 % U64) m' ('(' :: nm)
        else
          if m' = 0 then some (b ++ '|' :: (nm ++ [')']))
          else noSkipsLoop tn blob offs p1' (v * 2 % U64) m' (b ++ '|' :: nm)
      else none

/-- The specialized `String()` method emitted from `stringBitflagCodeWithSkips`
for a flag type whose generated data is `t`. -/
def stringGoWithSkips (t : Table) (m : Nat) : Option (List Char) :=
  if m = 0 then some t.zero
  else withSkipsLoop t.typename t.names t.offsets t.skips 0 t.first m []

/-- The specialized `String()` method emitted from `stringBitflagCode` (the
gap-free shape, chosen by the generator exactly when `skips` is empty). -/
def stringGoNoSkips (t : Table) (m : Nat) : Option (List Char) :=
  if m = 0 then some t.zero
  else noSkipsLoop t.typename t.names t.offsets 0 t.first m []

/-- State of the `_stringerBitflagCache`: `none` is Go's nil map. -/
structure CacheState where
  cached : Option (List (Nat × List Char))
deriving DecidableEq, Repr

/-- Map read `s, ok := c.cached[m]` (a nil map reads as a miss). -/
def cacheLookup : Option (List (Nat × List Char)) → Nat → Option (List Char)
  | none, _ => none
  | some l, m => (l.find? (fun p => p.1 == m)).map (fun p => p.2)

/-- Go map assignment `c.cached[m] = s`: replaces the entry when the key is
present, otherwise adds one. -/
def mapInsert (l : List (Nat × List Char)) (m : Nat) (s : List Char) :
    List (Nat × List Char) :=
  if l.any (fun p => p.1 == m) then l.map (fun p => if p.1 == m then (m, s) else p)
  else (m, s) :: l

/-- The cache capacity (the `%[6]d` / `capCache` constant, 256). -/
def CAP : Nat := 256

/-- Method `_stringerBitflagCache.mstring(m)`, sequentialized: return the zero name
for `m == 0`; otherwise look the mask up (read lock elided — the claim is about
the sequential cache contents), on a miss compute via the pure routine, then
under the write lock flush the whole map when it is nil or already holds at
least `CAP` entries, and insert the single new entry.  Returns the new state
and the produced string; `none` propagates a panic of the underlying decode. -/
def cacheMstring (sb : Table) (c : CacheState) (m : Nat) :
    Option (CacheState × List Char) :=
  if m = 0 then some (c, sb.zero)
  else
    match cacheLookup c.cached m with
    | some s => some (c, s)
    | none =>
      match sb.mstring m with
      | none => none
      | some s =>
        let l := match c.cached with
          | none => []
          | some l => if l.length ≥ CAP then [] else l
        some (⟨some (mapInsert l m s)⟩, s)

/-- A sequence of cached-decode calls threaded through the cache state. -/
def runCache (sb : Table) : CacheState → List Nat → Option CacheState
  | c, [] => some c
  | c, m :: ms =>
    match cacheMstring sb c m with
    | none => none
    | some (c', _) => runCache sb c' ms

/-- Number of entries held by the cache (`len(c.cached)`; 0 for a nil map). -/
def cacheSize (c : CacheState) : Nat :=
  match c.cached with
  | none => 0
  | some l => l.length

/-- Function `buildBitflag` restricted to the data it assembles for the table-driven
(shared-descriptor) packaging: runs the partitioner, computes the zero name
(`typeName + "(0)"` unless an explicit zero constant exists), builds blob /
offsets / skips via `nameAndRest`, and takes `first` from `runs[0][0]`
(the emitted initializer `uint64(initialValue)` evaluates to that constant's
value).  `none` collects the aborting executions: the partitioner's panics and
`nameAndRest`'s `os.Exit(1)`. -/
def buildBitflagTable (values : List Value) (typeName : String) : Option Table :=
  match splitIntoBitflagRuns values with
  | none => none
  | some (zero, runs) =>
    match runs with
    | [] => none
    | (f0 :: _) :: _ =>
      match nameAndRest runs with
      | .error _ => none
      | .ok (nm, offs, sks) =>
        some { typename := typeName.data
               zero := match zero with
                 | some z => z.name.data
                 | none => typeName.data ++ "(0)".data
               names := nm
               offsets := offs
               skips := sks
               first := f0.value }
    | [] :: _ => none

/-- Driver loop of `genFile`: one `Generator` buffer accumulates
`g.generate(info, typeName)` for each requested type in order (`generate`
calls `buildBitflag` in bitflag mode), and only after the loop does
`ioutil.WriteFile` write the single output file.  An aborting execution inside
the loop — `os.Exit(1)` in `nameAndRest`, the partitioner's panics, or
`log.Fatalf` for a type without values — kills the process before the write,
so no output file is produced at all.  The result is `some` list of the
batch's tables (the written file's contents, one per type, in order) when
every type builds, and `none` (no file) when any type aborts. -/
def genFileTables : List (List Value × String) → Option (List Table)
  | [] => some []
  | (vals, tn) :: rest =>
    match buildBitflagTable vals tn with
    | none => none
    | some t => (genFileTables rest).map (fun ts => t :: ts)

/-- Flattened view of the offsets the builder emits after flag `prev`: a gap
sentinel `0` precedes the name length of each flag that does not extend the
current run. -/
def offsetsFrom (prev : Value) : List Value → List Nat
  | [] => []
  | w :: rest =>
    (if w.value = (prev.value * 2) % U64 then ([] : List Nat) else [0]) ++
      (w.name.length :: offsetsFrom w rest)

/-- Flattened view of the skips the builder emits after flag `prev`. -/
def skipsFrom (prev : Value) : List Value → List Nat
  | [] => []
  | w :: rest =>
    (if w.value = (prev.value * 2) % U64 then ([] : List Nat)
     else [shiftCount prev.value w.value - 1]) ++ skipsFrom w rest

/-- Offsets of the whole table as a function of the flat survivor list. -/
def offsetsFor : List Value → List Nat
  | [] => []
  | f :: rest => f.name.length :: offsetsFrom f rest

/-- Skips of the whole table as a function of the flat survivor list. -/
def skipsFor : List Value → List Nat
  | [] => []
  | f :: rest => skipsFrom f rest

/-- Name blob of the whole table as a function of the flat survivor list. -/
def namesFor (l : List Value) : List Char := (l.map (fun v => v.name.data)).flatten

/-- The finalization step shared by every decode loop once the offsets are
exhausted: hex fallback for the residual mask, bare or appended. -/
def finalize (tn : List Char) (m : Nat) (b : List Char) : List Char :=
  if b = [] then hexFallback tn m else b ++ '|' :: (hexFallback tn m ++ [')'])

/-- Abstract walk over the flag list: the decode loop with the candidate bit
read off each flag directly (no shifting, no blob cursor) and an explicit
continuation for the exhausted case.  `mstringLoop` on a well-formed built
table is proved equal to `walkF` with continuation `finalize`. -/
def walkF : List Value → Nat → List Char → (Nat → List Char → List Char) → List Char
  | [], m, b, k => k m b
  | f :: rest, m, b, k =>
    if f.value &&& m = 0 then walkF rest m b k
    else
      let m' := m ^^^ f.value
      if b = [] then
        if m' = 0 then f.name.data
        else walkF rest m' ('(' :: f.name.data) k
      else
        if m' = 0 then b ++ '|' :: (f.name.data ++ [')'])
        else walkF rest m' (b ++ '|' :: f.name.data) k

/-! ### Concrete scenarios from the golden tests -/

/-- The "Days" scenario: seven flags at bits 0–6, no gaps, no explicit zero. -/
def daysValues : List Value :=
  [⟨"Monday", 1⟩, ⟨"Tuesday", 2⟩, ⟨"Wednesday", 4⟩, ⟨"Thursday", 8⟩,
   ⟨"Friday", 16⟩, ⟨"Saturday", 32⟩, ⟨"Sunday", 64⟩]

/-- The "Gap" scenario: explicit zero constant "Zero" and flags at bit
positions 2, 3, 5, 6, 7, 8, 9 and 11. -/
def gapValues : List Value :=
  [⟨"Zero", 0⟩, ⟨"Two", 4⟩, ⟨"Three", 8⟩, ⟨"Five", 32⟩, ⟨"Six", 64⟩,
   ⟨"Seven", 128⟩, ⟨"Eight", 256⟩, ⟨"Nine", 512⟩, ⟨"Eleven", 2048⟩]

/-- The descriptor generated for the Days scenario (matches the golden file). -/
def daysTable : Table :=
  { typename := "Days".data
    zero := "Days(0)".data
    names := "MondayTuesdayWednesdayThursdayFridaySaturdaySunday".data
    offsets := [6, 7, 9, 8, 6, 8, 6]
    skips := []
    first := 1 }

/-- The descriptor generated for the Gap scenario (matches the golden file). -/
def gapTable : Table :=
  { typename := "Gap".data
    zero := "Zero".data
    names := "TwoThreeFiveSixSevenEightNineEleven".data
    offsets := [3, 5, 0, 4, 3, 5, 5, 4, 0, 6]
    skips := [1, 1]
    first := 4 }

/-- The Gap scenario's runs, as the partitioner produces them. -/
def gapRuns : List (List Value) :=
  [[⟨"Two", 4⟩, ⟨"Three", 8⟩],
   [⟨"Five", 32⟩, ⟨"Six", 64⟩, ⟨"Seven", 128⟩, ⟨"Eight", 256⟩, ⟨"Nine", 512⟩],
   [⟨"Eleven", 2048⟩]]

/-- A cache already holding 256 entries, to exercise the flush-at-capacity
step. -/
def fullCache : CacheState :=
  ⟨some ((List.range 256).map (fun i => (i + 1, ['x'])))⟩

/-- A 256-byte flag name, one byte over the one-byte offset limit. -/
def longName : String := String.mk (List.replicate 256 'a')

/-! ### Sorting lemmas: membership, order, and stability of the zero candidate -/

theorem mem_insertByValue {x y : Value} {l : List Value} :
    y ∈ insertByValue x l ↔ y = x ∨ y ∈ l := by
  induction l with
  | nil => simp [insertByValue]
  | cons z zs ih =>
    simp only [insertByValue]
    split
    · simp [List.mem_cons]
    · simp only [List.mem_cons, ih]
      tauto

theorem mem_sortByValue {x : Value} {l : List Value} :
    x ∈ sortByValue l ↔ x ∈ l := by
  induction l with
  | nil => simp [sortByValue]
  | cons y ys ih => simp [sortByValue, mem_insertByValue, ih]

theorem pairwise_le_insertByValue {x : Value} {l : List Value}
    (h : l.Pairwise (fun u v => u.value ≤ v.value)) :
    (insertByValue x l).Pairwise (fun u v => u.value ≤ v.value) := by
  induction l with
  | nil => simp [insertByValue]
  | cons y ys ih =>
    rw [List.pairwise_cons] at h
    simp only [insertByValue]
    split
    · rename_i hxy
      refine List.pairwise_cons.mpr ⟨?_, List.pairwise_cons.mpr h⟩
      intro b hb
      rcases List.mem_cons.mp hb with rfl | hb
      · exact hxy
      · exact le_trans hxy (h.1 b hb)
    · rename_i hxy
      refine List.pairwise_cons.mpr ⟨?_, ih h.2⟩
      intro b hb
      rcases mem_insertByValue.mp hb with rfl | hb
      · omega
      · exact h.1 b hb

theorem pairwise_le_sortByValue (l : List Value) :
    (sortByValue l).Pairwise (fun u v => u.value ≤ v.value) := by
  induction l with
  | nil => simp [sortByValue]
  | cons y ys ih => exact pairwise_le_insertByValue ih

theorem find?_zero_insertByValue (x : Value) (l : List Value) :
    (insertByValue x l).find? (fun v => v.value == 0)
      = if x.value = 0 then some x else l.find? (fun v => v.value == 0) := by
  induction l with
  | nil =>
    simp only [insertByValue, List.find?_singleton]
    split <;> simp_all
  | cons y ys ih =>
    simp only [insertByValue]
    split
    · rename_i hxy
      by_cases hx : x.value = 0 <;> simp [List.find?_cons, hx]
    · rename_i hxy
      by_cases hy : y.value = 0
      · have hx : ¬ x.value = 0 := by omega
        simp [List.find?_cons, hy, hx]
      · simp [List.find?_cons, hy, ih]

theorem find?_zero_sortByValue (l : List Value) :
    (sortByValue l).find? (fun v => v.value == 0) = l.find? (fun v => v.value == 0) := by
  induction l with
  | nil => simp [sortByValue]
  | cons y ys ih =>
    simp only [sortByValue, find?_zero_insertByValue, ih]
    by_cases hy : y.value = 0 <;> simp [List.find?_cons, hy]

/-! ### Partitioner structure: the survivor list is strictly increasing -/

theorem removeDupAux_subset {x : Value} : ∀ {l : List Value} {prev : Value},
    x ∈ removeDupAux prev l → x ∈ l := by
  intro l
  induction l with
  | nil => intro prev h; simp [removeDupAux] at h
  | cons v rest ih =>
    intro prev h
    simp only [removeDupAux] at h
    split at h
    · rcases List.mem_cons.mp h with rfl | h
      · exact List.mem_cons_self _ _
      · exact List.mem_cons_of_mem _ (ih h)
    · exact List.mem_cons_of_mem _ (ih h)

theorem removeDupAux_singleBit {x : Value} : ∀ {l : List Value} {prev : Value},
    x ∈ removeDupAux prev l → singleBitSet x.value = true := by
  intro l
  induction l with
  | nil => intro prev h; simp [removeDupAux] at h
  | cons v rest ih =>
    intro prev h
    simp only [removeDupAux] at h
    split at h
    · rcases List.mem_cons.mp h with rfl | h
      · rename_i hc; exact hc.2
      · exact ih h
    · exact ih h

theorem chain'_lt_head_relax {p q : Value} {l : List Value}
    (h : List.Chain' (fun u v => u.value < v.value) (q :: l))
    (hpq : p.value ≤ q.value) :
    List.Chain' (fun u v => u.value < v.value) (p :: l) := by
  cases l with
  | nil => simp
  | cons w l' =>
    rw [List.chain'_cons] at h ⊢
    exact ⟨by omega, h.2⟩

theorem chain'_lt_removeDupAux : ∀ {l : List Value} {prev : Value},
    (prev :: l).Pairwise (fun u v => u.value ≤ v.value) →
    List.Chain' (fun u v => u.value < v.value) (prev :: removeDupAux prev l) := by
  intro l
  induction l with
  | nil => intro prev _; simp [removeDupAux]
  | cons v rest ih =>
    intro prev h
    have hpv : prev.value ≤ v.value := (List.pairwise_cons.mp h).1 v (List.mem_cons_self _ _)
    have htail : (v :: rest).Pairwise (fun u v => u.value ≤ v.value) :=
      (List.pairwise_cons.mp h).2
    simp only [removeDupAux]
    split
    · rename_i hc
      rw [List.chain'_cons]
      exact ⟨by omega, ih htail⟩
    · exact chain'_lt_head_relax (ih htail) hpv

theorem flatten_runsAux : ∀ (rest : List Value) (prev : Value) (cur : List Value),
    (runsAux prev cur rest).flatten = cur.reverse ++ rest := by
  intro rest
  induction rest with
  | nil => intro prev cur; simp [runsAux]
  | cons v rest ih =>
    intro prev cur
    simp only [runsAux]
    split
    · rw [ih]; simp
    · simp only [List.flatten_cons, ih]
      simp

theorem flatten_runsOf (l : List Value) : (runsOf l).flatten = l := by
  cases l with
  | nil => simp [runsOf]
  | cons v rest => simp [runsOf, flatten_runsAux]

theorem runsAux_first : ∀ (rest : List Value) (prev : Value) (cur : List Value),
    ∃ t more, runsAux prev cur rest = (cur.reverse ++ t) :: more := by
  intro rest
  induction rest with
  | nil => intro prev cur; exact ⟨[], [], by simp [runsAux]⟩
  | cons v rest ih =>
    intro prev cur
    simp only [runsAux]
    split
    · obtain ⟨t, more, h⟩ := ih v (v :: cur)
      refine ⟨v :: t, more, ?_⟩
      rw [h]; simp
    · exact ⟨[], runsAux v [v] rest, by simp⟩

/-! ### The builder's output as a function of the flat survivor list -/

theorem runNames_append (a b : List Value) :
    runNames (a ++ b) = runNames a ++ runNames b := by
  simp [runNames]

theorem runOffsets_append (a b : List Value) :
    runOffsets (a ++ b) = runOffsets a ++ runOffsets b := by
  simp [runOffsets]

theorem namesFor_eq_runNames (l : List Value) : namesFor l = runNames l := rfl

theorem runLastD_reverse_cons (v : Value) (l : List Value) :
    runLastD ((v :: l).reverse) = v := by
  simp [runLastD, List.getLastD_eq_getLast?, List.getLast?_reverse]

theorem nameAndRestAux_runsAux :
    ∀ (rest : List Value) (prev : Value) (cur2 : List Value),
    nameAndRestAux (runsAux prev (prev :: cur2) rest)
      = (runNames (prev :: cur2).reverse ++ namesFor rest,
         runOffsets (prev :: cur2).reverse ++ offsetsFrom prev rest,
         skipsFrom prev rest) := by
  intro rest
  induction rest with
  | nil =>
    intro prev cur2
    simp [runsAux, nameAndRestAux, namesFor, offsetsFrom, skipsFrom]
  | cons v rest ih =>
    intro prev cur2
    simp only [runsAux]
    split
    · rename_i hdbl
      rw [ih v (prev :: cur2)]
      simp only [Prod.mk.injEq]
      refine ⟨?_, ?_, ?_⟩
      · simp only [List.reverse_cons, runNames_append, namesFor, List.map_cons,
          List.flatten_cons, List.append_assoc]
        simp [runNames]
      · simp only [List.reverse_cons, runOffsets_append, offsetsFrom, hdbl,
          if_pos rfl, List.nil_append, List.append_assoc]
        simp [runOffsets]
      · simp [skipsFrom, hdbl]
    · rename_i hdbl
      obtain ⟨t, more, heq⟩ := runsAux_first rest v [v]
      simp only [List.reverse_cons, List.reverse_nil, List.nil_append,
        List.singleton_append] at heq
      have hIH := ih v []
      rw [heq] at hIH ⊢
      simp only [nameAndRestAux, hIH]
      simp only [runLastD_reverse_cons, runHeadD, List.headD_cons, Prod.mk.injEq]
      refine ⟨?_, ?_, ?_⟩
      · simp only [namesFor, List.map_cons, List.flatten_cons]
        simp [runNames, namesFor]
      · simp only [offsetsFrom, if_neg hdbl, List.singleton_append]
        simp [runOffsets, namesFor]
      · simp [skipsFrom, if_neg hdbl]

theorem nameAndRestAux_runsOf (l : List Value) (hl : l ≠ []) :
    nameAndRestAux (runsOf l) = (namesFor l, offsetsFor l, skipsFor l) := by
  cases l with
  | nil => exact absurd rfl hl
  | cons v rest =>
    have h := nameAndRestAux_runsAux rest v []
    simp only [runsOf]
    rw [h]
    simp [runNames, runOffsets, namesFor, offsetsFor, skipsFor]

/-! ### Builder invariants (sum of offsets, zero-count, single-run) -/

theorem name_length_ne_zero {v : Value} (h : v.name ≠ "") : v.name.length ≠ 0 := by
  intro hlen
  exact h (by
    cases hv : v.name with
    | mk data =>
      rw [hv] at hlen
      cases data with
      | nil => rfl
      | cons c cs => simp [String.length, hv] at hlen)

theorem sum_runOffsets (run : List Value) :
    (runOffsets run).sum = (runNames run).length := by
  induction run with
  | nil => simp [runOffsets, runNames]
  | cons v rest ih =>
    simp only [runOffsets, runNames, List.map_cons, List.flatten_cons,
      List.sum_cons, List.length_append] at ih ⊢
    rw [ih]
    rfl

theorem count_zero_runOffsets (run : List Value) (hn : ∀ v ∈ run, v.name ≠ "") :
    (runOffsets run).count 0 = 0 := by
  induction run with
  | nil => simp [runOffsets]
  | cons v rest ih =>
    have h0 : v.name.length ≠ 0 := name_length_ne_zero (hn v (List.mem_cons_self _ _))
    have ht := ih (fun w hw => hn w (List.mem_cons_of_mem _ hw))
    have hne : (v.name.length == 0) = false := by
      rw [beq_eq_false_iff_ne]
      exact h0
    simp only [runOffsets, List.map_cons, List.count_cons, hne] at ht ⊢
    simpa using ht

theorem nameAndRestAux_sum : ∀ runs : List (List Value),
    ((nameAndRestAux runs).2.1).sum = ((nameAndRestAux runs).1).length := by
  intro runs
  induction runs with
  | nil => simp [nameAndRestAux]
  | cons run rs ih =>
    cases rs with
    | nil => simp [nameAndRestAux, sum_runOffsets]
    | cons next rest =>
      simp only [nameAndRestAux] at ih ⊢
      simp [List.sum_append, List.length_append, sum_runOffsets, ih]

theorem nameAndRestAux_count : ∀ runs : List (List Value),
    (∀ run ∈ runs, ∀ v ∈ run, v.name ≠ "") →
    ((nameAndRestAux runs).2.2).length = ((nameAndRestAux runs).2.1).count 0 := by
  intro runs
  induction runs with
  | nil => simp [nameAndRestAux]
  | cons run rs ih =>
    intro hn
    cases rs with
    | nil =>
      simp [nameAndRestAux, count_zero_runOffsets run (hn run (List.mem_cons_self _ _))]
    | cons next rest =>
      have hrun : (runOffsets run).count 0 = 0 :=
        count_zero_runOffsets run (hn run (List.mem_cons_self _ _))
      have htail := ih (fun r hr v hv => hn r (List.mem_cons_of_mem _ hr) v hv)
      simp only [nameAndRestAux] at htail ⊢
      simp [List.count_append, List.count_cons, hrun, htail]

theorem filter_ne_zero_sum (offs : List Nat) :
    (offs.filter (fun o => o != 0)).sum = offs.sum := by
  induction offs with
  | nil => simp
  | cons o rest ih =>
    by_cases h : o = 0 <;> simp [List.filter_cons, h, ih]

/-! ### Totality of the decode loop under the structural table invariants -/

theorem mstringLoop_isSome (tn blob : List Char) :
    ∀ (offs sks : List Nat) (p1 v m : Nat) (b : List Char),
    offs.count 0 ≤ sks.length →
    p1 + offs.sum ≤ blob.length →
    (mstringLoop tn blob offs sks p1 v m b).isSome = true := by
  intro offs
  induction offs with
  | nil =>
    intro sks p1 v m b _ _
    simp only [mstringLoop]
    split <;> simp
  | cons o rest ih =>
    intro sks p1 v m b hc hs
    simp only [mstringLoop]
    split
    · rename_i ho
      subst ho
      cases sks with
      | nil => simp [List.count_cons_self] at hc
      | cons k ks =>
        apply ih
        · rw [List.count_cons_self] at hc
          simpa using Nat.le_of_succ_le_succ hc
        · simpa using hs
    · rename_i ho
      have hc' : rest.count 0 ≤ sks.length := by
        rwa [List.count_cons_of_ne (by omega)] at hc
      have hsum : (o :: rest).sum = o + rest.sum := List.sum_cons
      split
      · apply ih _ _ _ _ _ hc'
        rw [hsum] at hs
        omega
      · rw [if_pos (by rw [hsum] at hs; omega)]
        split
        · split
          · simp
          · apply ih _ _ _ _ _ hc'
            rw [hsum] at hs
            omega
        · split
          · simp
          · apply ih _ _ _ _ _ hc'
            rw [hsum] at hs
            omega

/-! ### The two per-type specialized loops agree with the shared loop -/

theorem withSkipsLoop_eq_mstringLoop (tn blob : List Char) :
    ∀ (offs sks : List Nat) (p1 v m : Nat) (b : List Char),
    withSkipsLoop tn blob offs sks p1 v m b = mstringLoop tn blob offs sks p1 v m b := by
  intro offs
  induction offs with
  | nil => intro sks p1 v m b; rfl
  | cons o rest ih =>
    intro sks p1 v m b
    simp only [withSkipsLoop, mstringLoop]
    split
    · cases sks with
      | nil => rfl
      | cons k ks => exact ih _ _ _ _ _
    · split
      · exact ih _ _ _ _ _
      · split
        · split
          · split
            · rfl
            · exact ih _ _ _ _ _
          · split
            · rfl
            · exact ih _ _ _ _ _
        · rfl

theorem noSkipsLoop_eq_mstringLoop (tn blob : List Char) :
    ∀ (offs : List Nat), (∀ o ∈ offs, o ≠ 0) →
    ∀ (sks : List Nat) (p1 v m : Nat) (b : List Char),
    noSkipsLoop tn blob offs p1 v m b = mstringLoop tn blob offs sks p1 v m b := by
  intro offs
  induction offs with
  | nil => intro _ sks p1 v m b; rfl
  | cons o rest ih =>
    intro hno sks p1 v m b
    have ho : o ≠ 0 := hno o (List.mem_cons_self _ _)
    have hrest : ∀ o ∈ rest, o ≠ 0 := fun x hx => hno x (List.mem_cons_of_mem _ hx)
    simp only [noSkipsLoop, mstringLoop, if_neg ho]
    split
    · exact ih hrest _ _ _ _ _
    · split
      · split
        · split
          · rfl
          · exact ih hrest _ _ _ _ _
        · split
          · rfl
          · exact ih hrest _ _ _ _ _
      · rfl

/-! ### Bit arithmetic on powers of two -/

theorem pow_land_pow {a b : Nat} (h : a ≠ b) : 2 ^ a &&& 2 ^ b = 0 := by
  apply Nat.eq_of_testBit_eq
  intro i
  simp only [Nat.testBit_land, Nat.zero_testBit]
  rcases eq_or_ne i a with rfl | hia
  · rw [Nat.testBit_two_pow_of_ne (Ne.symm h)]
    simp
  · rw [Nat.testBit_two_pow_of_ne (fun hh => hia hh.symm)]
    simp

theorem pow_land_lor_left {a c : Nat} : 2 ^ a &&& (2 ^ a ||| 2 ^ c) = 2 ^ a := by
  apply Nat.eq_of_testBit_eq
  intro i
  simp only [Nat.testBit_land, Nat.testBit_lor]
  cases h : (2 ^ a).testBit i <;> simp

theorem pow_lor_xor_left {a c : Nat} (h : a ≠ c) :
    (2 ^ a ||| 2 ^ c) ^^^ 2 ^ a = 2 ^ c := by
  apply Nat.eq_of_testBit_eq
  intro i
  simp only [Nat.testBit_xor, Nat.testBit_lor]
  rcases eq_or_ne i a with rfl | hia
  · rw [Nat.testBit_two_pow_self, Nat.testBit_two_pow_of_ne (Ne.symm h)]
    simp
  · rw [Nat.testBit_two_pow_of_ne (fun hh => hia hh.symm)]
    simp

theorem pow_ne_zero_nat (a : Nat) : 2 ^ a ≠ 0 := by positivity

/-! ### `shiftCount` on powers of two -/

theorem shiftCountAux_stop (f : Nat) {prev next : Nat} (h : ¬ prev < next) :
    shiftCountAux f prev next = 0 := by
  cases f with
  | zero => rfl
  | succ f => simp [shiftCountAux, if_neg h]

theorem shiftCountAux_pow :
    ∀ (f a c : Nat), a < c → c ≤ 63 → c - a ≤ f →
    shiftCountAux f (2 ^ a) (2 ^ c) = c - a := by
  intro f
  induction f with
  | zero => intro a c hac _ hf; omega
  | succ f ih =>
    intro a c hac hc hf
    have hlt : (2 : Nat) ^ a < 2 ^ c := Nat.pow_lt_pow_right (by omega) hac
    have hmod : (2 ^ a * 2) % U64 = 2 ^ (a + 1) := by
      rw [← Nat.pow_succ]
      exact Nat.mod_eq_of_lt (Nat.pow_lt_pow_right (by omega) (by omega : a + 1 < 64))
    simp only [shiftCountAux, if_pos hlt, hmod]
    rcases eq_or_lt_of_le (Nat.succ_le_of_lt hac) with h1 | h1
    · have h2 : a + 1 = c := h1
      rw [h2, shiftCountAux_stop f (by omega)]
      omega
    · rw [ih (a + 1) c h1 hc (by omega)]
      omega

theorem shiftCount_pow {a c : Nat} (hac : a < c) (hc : c ≤ 63) :
    shiftCount (2 ^ a) (2 ^ c) = c - a :=
  shiftCountAux_pow 64 a c hac hc (by omega)

/-! ### The decode loop on a built table simulates the abstract walk -/

theorem mstringLoop_eq_walkF (tn : List Char) :
    ∀ (l : List Value) (done : List Char) (v m : Nat) (b : List Char),
    (∀ x ∈ l, x.name ≠ "") →
    (∀ x ∈ l, ∃ e, e ≤ 63 ∧ x.value = 2 ^ e) →
    List.Chain' (fun u w => u.value < w.value) l →
    (∀ g ∈ l.head?, v = g.value) →
    mstringLoop tn (done ++ namesFor l) (offsetsFor l) (skipsFor l) done.length v m b
      = some (walkF l m b (finalize tn)) := by
  intro l
  induction l with
  | nil =>
    intro done v m b _ _ _ _
    simp only [namesFor, offsetsFor, skipsFor, List.map_nil, List.flatten_nil,
      mstringLoop, walkF, finalize]
    split <;> rfl
  | cons f rest ih =>
    intro done v m b hn hp hc hv
    have hvf : v = f.value := hv f (by simp)
    subst hvf
    have hnf : f.name.length ≠ 0 := name_length_ne_zero (hn f (List.mem_cons_self _ _))
    have hdata : f.name.data.length = f.name.length := rfl
    have hnames : namesFor (f :: rest) = f.name.data ++ namesFor rest := by
      simp [namesFor]
    have hlen : (done ++ f.name.data).length = done.length + f.name.length := by
      rw [List.length_append, hdata]
    have hn' : ∀ x ∈ rest, x.name ≠ "" := fun x hx => hn x (List.mem_cons_of_mem _ hx)
    have hp' : ∀ x ∈ rest, ∃ e, e ≤ 63 ∧ x.value = 2 ^ e :=
      fun x hx => hp x (List.mem_cons_of_mem _ hx)
    have hc' : List.Chain' (fun u w => u.value < w.value) rest := hc.tail
    -- the advance across the boundary after `f` (run continuation, gap, or end),
    -- shared by all three continuing branches of the `f` step
    have hadv : ∀ (m' : Nat) (b' : List Char),
        mstringLoop tn (done ++ namesFor (f :: rest)) (offsetsFrom f rest)
            (skipsFrom f rest) (done.length + f.name.length) ((f.value * 2) % U64) m' b'
          = some (walkF rest m' b' (finalize tn)) := by
      intro m' b'
      cases rest with
      | nil =>
        simp only [offsetsFrom, skipsFrom, mstringLoop, walkF, finalize]
        split <;> rfl
      | cons g rest' =>
        obtain ⟨a, ha63, hfa⟩ := hp f (List.mem_cons_self _ _)
        obtain ⟨c, hc63, hgc⟩ := hp g (by simp)
        have hfg : f.value < g.value := (List.chain'_cons.mp hc).1
        have hac : a < c := by
          rw [hfa, hgc] at hfg
          exact (Nat.pow_lt_pow_iff_right (by omega)).mp hfg
        have hmodf : (f.value * 2) % U64 = 2 ^ (a + 1) := by
          rw [hfa, ← Nat.pow_succ]
          exact Nat.mod_eq_of_lt (Nat.pow_lt_pow_right (by omega) (by omega))
        have hhead : ∀ x ∈ (g :: rest').head?, (2 : Nat) ^ c = x.value := by
          intro x hx
          simp only [List.head?_cons, Option.mem_def, Option.some.injEq] at hx
          rw [← hx, hgc]
        by_cases hdbl : g.value = (f.value * 2) % U64
        · have hofs : offsetsFrom f (g :: rest') = g.name.length :: offsetsFrom g rest' := by
            simp [offsetsFrom, hdbl]
          have hsks : skipsFrom f (g :: rest') = skipsFrom g rest' := by
            simp [skipsFrom, hdbl]
          rw [hofs, hsks, hnames, ← List.append_assoc, ← hlen, ← hdbl]
          have := ih (done ++ f.name.data) g.value m' b' hn' hp' hc'
            (by intro x hx
                simp only [List.head?_cons, Option.mem_def, Option.some.injEq] at hx
                rw [← hx])
          simpa [offsetsFor, skipsFor] using this
        · have hcge : a + 2 ≤ c := by
            by_contra hcon
            have hceq : c = a + 1 := by omega
            exact hdbl (by rw [hgc, hmodf, hceq])
          have hsc : shiftCount f.value g.value = c - a := by
            rw [hfa, hgc]
            exact shiftCount_pow hac hc63
          have hofs : offsetsFrom f (g :: rest')
              = 0 :: g.name.length :: offsetsFrom g rest' := by
            simp [offsetsFrom, hdbl]
          have hsks : skipsFrom f (g :: rest')
              = (shiftCount f.value g.value - 1) :: skipsFrom g rest' := by
            simp [skipsFrom, hdbl]
          rw [hofs, hsks]
          rw [show mstringLoop tn (done ++ namesFor (f :: g :: rest'))
                (0 :: g.name.length :: offsetsFrom g rest')
                ((shiftCount f.value g.value - 1) :: skipsFrom g rest')
                (done.length + f.name.length) ((f.value * 2) % U64) m' b'
              = mstringLoop tn (done ++ namesFor (f :: g :: rest'))
                (g.name.length :: offsetsFrom g rest') (skipsFrom g rest')
                (done.length + f.name.length)
                (((f.value * 2) % U64 *
                  2 ^ ((shiftCount f.value g.value - 1 + 255) % 256)) % U64 * 2 % U64)
                m' b' from rfl]
          have hv2 : ((f.value * 2) % U64 *
              2 ^ ((shiftCount f.value g.value - 1 + 255) % 256)) % U64 * 2 % U64
              = g.value := by
            rw [hsc, hmodf]
            have hsh : (c - a - 1 + 255) % 256 = c - a - 2 := by omega
            rw [hsh, ← Nat.pow_add]
            have he1 : a + 1 + (c - a - 2) = c - 1 := by omega
            rw [he1]
            have hm1 : (2 : Nat) ^ (c - 1) % U64 = 2 ^ (c - 1) :=
              Nat.mod_eq_of_lt (Nat.pow_lt_pow_right (by omega) (by omega : c - 1 < 64))
            rw [hm1, ← Nat.pow_succ]
            have he2 : (c - 1).succ = c := by omega
            rw [he2]
            have hm2 : (2 : Nat) ^ c % U64 = 2 ^ c :=
              Nat.mod_eq_of_lt (Nat.pow_lt_pow_right (by omega) (by omega : c < 64))
            rw [hm2, ← hgc]
          rw [hv2, hnames, ← List.append_assoc, ← hlen]
          have := ih (done ++ f.name.data) g.value m' b' hn' hp' hc'
            (by intro x hx
                simp only [List.head?_cons, Option.mem_def, Option.some.injEq] at hx
                rw [← hx])
          simpa [offsetsFor, skipsFor] using this
    -- one decode step for `f` itself
    have hofsFor : offsetsFor (f :: rest) = f.name.length :: offsetsFrom f rest := rfl
    have hsksFor : skipsFor (f :: rest) = skipsFrom f rest := rfl
    rw [hofsFor, hsksFor]
    simp only [mstringLoop, if_neg hnf, walkF]
    have hb : done.length + f.name.length ≤ (done ++ namesFor (f :: rest)).length := by
      rw [List.length_append, hnames, List.length_append, hdata]
      omega
    have hdrop : ((done ++ namesFor (f :: rest)).drop done.length).take f.name.length
        = f.name.data := by
      rw [hnames, List.drop_left, ← hdata, List.take_left]
    by_cases hvm : f.value &&& m = 0
    · simp only [if_pos hvm]
      exact hadv m b
    · simp only [if_neg hvm, if_pos hb, hdrop]
      by_cases hbempty : b = []
      · simp only [if_pos hbempty]
        by_cases hm0 : m ^^^ f.value = 0
        · simp only [if_pos hm0]
        · simp only [if_neg hm0]
          exact hadv (m ^^^ f.value) ('(' :: f.name.data)
      · simp only [if_neg hbempty]
        by_cases hm0 : m ^^^ f.value = 0
        · simp only [if_pos hm0]
        · simp only [if_neg hm0]
          exact hadv (m ^^^ f.value) (b ++ '|' :: f.name.data)

/-! ### Walk lemmas and pipeline decomposition -/

theorem walkF_skip (l : List Value) (m : Nat) (b : List Char)
    (k : Nat → List Char → List Char) :
    ∀ pre : List Value, (∀ x ∈ pre, x.value &&& m = 0) →
    walkF (pre ++ l) m b k = walkF l m b k := by
  intro pre
  induction pre with
  | nil => intro _; rfl
  | cons x pre ih =>
    intro h
    simp only [List.cons_append, walkF, if_pos (h x (List.mem_cons_self _ _))]
    exact ih (fun y hy => h y (List.mem_cons_of_mem _ hy))

theorem dropWhile_cons_false {p : Value → Bool} :
    ∀ {l : List Value} {x : Value} {xs : List Value},
    l.dropWhile p = x :: xs → p x = false := by
  intro l
  induction l with
  | nil => intro x xs h; simp [List.dropWhile] at h
  | cons y ys ih =>
    intro x xs h
    rw [List.dropWhile_cons] at h
    split at h
    · exact ih h
    · rename_i hy
      cases h
      simpa using hy

theorem split_survivors {values : List Value} {zero : Option Value}
    {runs : List (List Value)}
    (h : splitIntoBitflagRuns values = some (zero, runs)) :
    ∃ w0 wrest,
      runs = runsOf (w0 :: removeDupAux w0 wrest)
      ∧ (w0 :: wrest).Pairwise (fun u v => u.value ≤ v.value)
      ∧ w0.value ≠ 0
      ∧ (∀ x ∈ w0 :: wrest, x ∈ values) := by
  have hsort := pairwise_le_sortByValue values
  rcases hs : sortByValue values with _ | ⟨v0, rest⟩
  · simp only [splitIntoBitflagRuns, hs] at h
    exact Option.noConfusion h
  · rw [hs] at hsort
    simp only [splitIntoBitflagRuns, hs] at h
    by_cases h0 : v0.value = 0
    · rw [if_pos h0] at h
      rcases hd : (v0 :: rest).dropWhile (fun v => v.value = 0) with _ | ⟨w0, wrest⟩
      · rw [hd] at h
        simp at h
      · rw [hd] at h
        simp only [Option.some.injEq, Prod.mk.injEq] at h
        obtain ⟨hz, hr⟩ := h
        have hsub : (w0 :: wrest).Sublist (v0 :: rest) := by
          rw [← hd]
          exact List.dropWhile_sublist _
        refine ⟨w0, wrest, hr.symm, hsort.sublist hsub, ?_, ?_⟩
        · have := dropWhile_cons_false hd
          simpa using this
        · intro x hx
          have hx2 : x ∈ v0 :: rest := hsub.subset hx
          rw [← hs] at hx2
          exact mem_sortByValue.mp hx2
    · rw [if_neg h0] at h
      simp only [Option.some.injEq, Prod.mk.injEq] at h
      obtain ⟨hz, hr⟩ := h
      refine ⟨v0, rest, hr.symm, hsort, h0, ?_⟩
      intro x hx
      rw [← hs] at hx
      exact mem_sortByValue.mp hx

theorem build_parts {values : List Value} {tn : String} {t : Table}
    (h : buildBitflagTable values tn = some t) :
    ∃ zero runs f0 r rs,
      splitIntoBitflagRuns values = some (zero, runs)
      ∧ runs = (f0 :: r) :: rs
      ∧ nameAndRest runs = .ok (t.names, t.offsets, t.skips)
      ∧ t.first = f0.value
      ∧ t.typename = tn.data
      ∧ t.zero = (match zero with
          | some z => z.name.data
          | none => tn.data ++ "(0)".data) := by
  rcases hsp : splitIntoBitflagRuns values with _ | ⟨zero, runs⟩
  · simp only [buildBitflagTable, hsp] at h
    exact Option.noConfusion h
  · simp only [buildBitflagTable, hsp] at h
    rcases runs with _ | ⟨r0, rs⟩
    · simp at h
    · rcases r0 with _ | ⟨f0, r⟩
      · simp at h
      · rcases hnr : nameAndRest ((f0 :: r) :: rs) with e | ⟨nm, offs, sks⟩
        · rw [hnr] at h
          simp at h
        · rw [hnr] at h
          simp only [Option.some.injEq] at h
          refine ⟨zero, (f0 :: r) :: rs, f0, r, rs, rfl, rfl, ?_, ?_, ?_, ?_⟩
          · rw [hnr, ← h]
          · rw [← h]
          · rw [← h]
          · rw [← h]

theorem nameAndRest_ok {runs : List (List Value)} {nm : List Char} {offs sks : List Nat}
    (h : nameAndRest runs = .ok (nm, offs, sks)) :
    nameAndRestAux runs = (nm, offs, sks) ∧ ∀ v ∈ runs.flatten, v.name.length ≤ 255 := by
  unfold nameAndRest at h
  split at h
  · rename_i hall
    simp only [Except.ok.injEq] at h
    refine ⟨h, ?_⟩
    intro v hv
    have := List.all_eq_true.mp hall v hv
    simpa using this
  · exact Except.noConfusion h

theorem singleBitSet_ne_zero {v : Nat} (h : singleBitSet v = true) : v ≠ 0 := by
  simp only [singleBitSet, Bool.and_eq_true, bne_iff_ne, ne_eq] at h
  exact h.1

theorem split_flatten_mem {values : List Value} {zero : Option Value}
    {runs : List (List Value)}
    (hsp : splitIntoBitflagRuns values = some (zero, runs)) :
    ∀ x ∈ runs.flatten, x ∈ values := by
  obtain ⟨w0, wrest, hr, _, _, hmem⟩ := split_survivors hsp
  rw [hr, flatten_runsOf]
  intro x hx
  rcases List.mem_cons.mp hx with rfl | hx
  · exact hmem _ (List.mem_cons_self _ _)
  · exact hmem _ (List.mem_cons_of_mem _ (removeDupAux_subset hx))

/-- Structural facts that hold of every successfully built table. -/
theorem build_table_facts {values : List Value} {tn : String} {t : Table}
    (h : buildBitflagTable values tn = some t) :
    ∃ sv : List Value,
      sv ≠ []
      ∧ survivorsOf values = sv
      ∧ t.names = namesFor sv
      ∧ t.offsets = offsetsFor sv
      ∧ t.skips = skipsFor sv
      ∧ (∀ g ∈ sv.head?, t.first = g.value)
      ∧ t.typename = tn.data
      ∧ List.Chain' (fun u w => u.value < w.value) sv
      ∧ (∀ x ∈ sv, x ∈ values)
      ∧ (∀ x ∈ sv.tail, singleBitSet x.value = true)
      ∧ (∀ x ∈ sv, x.value ≠ 0) := by
  obtain ⟨zero, runs, f0, r, rs, hsp, hruns, hok, hfirst, htn, hz⟩ := build_parts h
  obtain ⟨w0, wrest, hrof, hpair, hw0, hmem⟩ := split_survivors hsp
  obtain ⟨haux, _⟩ := nameAndRest_ok hok
  set sv := w0 :: removeDupAux w0 wrest with hsv
  have hflat : runs.flatten = sv := by rw [hrof, flatten_runsOf]
  have hform : nameAndRestAux runs = (namesFor sv, offsetsFor sv, skipsFor sv) := by
    rw [hrof]
    exact nameAndRestAux_runsOf _ (by simp [hsv])
  have hcomp : (t.names, t.offsets, t.skips) = (namesFor sv, offsetsFor sv, skipsFor sv) := by
    rw [← haux, hform]
  simp only [Prod.mk.injEq] at hcomp
  refine ⟨sv, by simp [hsv], ?_, hcomp.1, hcomp.2.1, hcomp.2.2, ?_, htn, ?_, ?_, ?_, ?_⟩
  · unfold survivorsOf
    rw [hsp]
    exact hflat
  · intro g hg
    have hhead : sv.head? = some f0 := by
      rw [← hflat, hruns]
      simp
    rw [hhead] at hg
    simp only [Option.mem_def, Option.some.injEq] at hg
    rw [hfirst, hg]
  · exact chain'_lt_removeDupAux hpair
  · intro x hx
    rcases List.mem_cons.mp hx with rfl | hx
    · exact hmem _ (List.mem_cons_self _ _)
    · exact hmem _ (List.mem_cons_of_mem _ (removeDupAux_subset hx))
  · intro x hx
    exact removeDupAux_singleBit hx
  · intro x hx
    rcases List.mem_cons.mp hx with rfl | hx
    · exact hw0
    · exact singleBitSet_ne_zero (removeDupAux_singleBit hx)

/-- Transfer of the power-of-two shape from the input hypothesis to survivors. -/
theorem survivors_powers {values sv : List Value}
    (hpow : ∀ v ∈ values, v.value = 0 ∨ ∃ e, e ≤ 63 ∧ v.value = 2 ^ e)
    (hmem : ∀ x ∈ sv, x ∈ values) (hnz : ∀ x ∈ sv, x.value ≠ 0) :
    ∀ x ∈ sv, ∃ e, e ≤ 63 ∧ x.value = 2 ^ e := by
  intro x hx
  rcases hpow x (hmem x hx) with h0 | hp
  · exact absurd h0 (hnz x hx)
  · exact hp

/-- Nonempty names transferred down to the flattened run list of the builder. -/
theorem runs_names_nonempty {values : List Value} {zero : Option Value}
    {runs : List (List Value)}
    (hsp : splitIntoBitflagRuns values = some (zero, runs))
    (hnames : ∀ v ∈ values, v.name ≠ "") :
    ∀ run ∈ runs, ∀ v ∈ run, v.name ≠ "" :=
  fun run hrun v hv =>
    hnames v (split_flatten_mem hsp v (List.mem_flatten.mpr ⟨run, hrun, hv⟩))

/-- C1: the decode algorithm is total: for every well-formed built table (every
input name nonempty, as the spec's data model requires of offsets) and every
mask, `mstring` returns a string — all blob slices and skips reads stay in
bounds (the `Option` embedding returns `none` exactly on the Go panics). -/
theorem decode_total {values : List Value} {tn : String} {t : Table}
    (hbuild : buildBitflagTable values tn = some t)
    (hnames : ∀ v ∈ values, v.name ≠ "") :
    ∀ m : Nat, (t.mstring m).isSome = true := by
  intro m
  obtain ⟨zero, runs, f0, r, rs, hsp, hruns, hok, hfirst, htn, hz⟩ := build_parts hbuild
  obtain ⟨haux, _⟩ := nameAndRest_ok hok
  have hn : ∀ run ∈ runs, ∀ v ∈ run, v.name ≠ "" := runs_names_nonempty hsp hnames
  have hcount : t.skips.length = List.count 0 t.offsets := by
    have := nameAndRestAux_count runs hn
    rw [haux] at this
    exact this
  have hsum : t.offsets.sum = t.names.length := by
    have := nameAndRestAux_sum runs
    rw [haux] at this
    exact this
  unfold Table.mstring
  split
  · rfl
  · refine mstringLoop_isSome _ _ _ _ _ _ _ _ (le_of_eq hcount.symm) ?_
    omega

/-- C2: for every built table (nonempty names) and every mask, the shared
descriptor routine `mstring` returns exactly what the per-type specialized
`String` method returns, in the with-gaps shape always and in the gap-free
shape whenever the generator would emit it (`skips = []`). -/
theorem shapes_agree {values : List Value} {tn : String} {t : Table}
    (hbuild : buildBitflagTable values tn = some t)
    (hnames : ∀ v ∈ values, v.name ≠ "") :
    ∀ m : Nat,
      stringGoWithSkips t m = t.mstring m
      ∧ (t.skips = [] → stringGoNoSkips t m = t.mstring m) := by
  intro m
  constructor
  · unfold stringGoWithSkips Table.mstring
    split
    · rfl
    · exact withSkipsLoop_eq_mstringLoop _ _ _ _ _ _ _ _
  · intro hsk
    obtain ⟨zero, runs, f0, r, rs, hsp, hruns, hok, hfirst, htn, hz⟩ := build_parts hbuild
    obtain ⟨haux, _⟩ := nameAndRest_ok hok
    have hn : ∀ run ∈ runs, ∀ v ∈ run, v.name ≠ "" := runs_names_nonempty hsp hnames
    have hcount : t.skips.length = List.count 0 t.offsets := by
      have := nameAndRestAux_count runs hn
      rw [haux] at this
      exact this
    rw [hsk] at hcount
    have hnz : ∀ o ∈ t.offsets, o ≠ 0 := by
      intro o ho rfl0
      subst rfl0
      have : (0 : Nat) ∉ t.offsets := List.count_eq_zero.mp (by simpa using hcount.symm)
      exact this ho
    unfold stringGoNoSkips Table.mstring
    split
    · rfl
    · exact noSkipsLoop_eq_mstringLoop _ _ _ hnz _ _ _ _ _

/-- C5: every encoded table the builder produces is well-formed: the non-zero
offsets sum to the blob length, the skips count equals the number of zero
sentinels in offsets (names being nonempty), and a single run yields no skips. -/
theorem builder_invariants {runs : List (List Value)} {nm : List Char}
    {offs sks : List Nat}
    (hok : nameAndRest runs = .ok (nm, offs, sks))
    (hn : ∀ run ∈ runs, ∀ v ∈ run, v.name ≠ "") :
    (offs.filter (fun o => o != 0)).sum = nm.length
    ∧ sks.length = offs.count 0
    ∧ (runs.length = 1 → sks = []) := by
  obtain ⟨haux, _⟩ := nameAndRest_ok hok
  refine ⟨?_, ?_, ?_⟩
  · rw [filter_ne_zero_sum]
    have := nameAndRestAux_sum runs
    rw [haux] at this
    exact this
  · have := nameAndRestAux_count runs hn
    rw [haux] at this
    exact this
  · intro h1
    rcases runs with _ | ⟨run, rs⟩
    · simp at h1
    · rcases rs with _ | ⟨next, rest⟩
      · simp only [nameAndRestAux, Prod.mk.injEq] at haux
        exact haux.2.2.symm
      · simp at h1

theorem pow_land_lor_ne {e a c : Nat} (h1 : e ≠ a) (h2 : e ≠ c) :
    2 ^ e &&& (2 ^ a ||| 2 ^ c) = 0 := by
  apply Nat.eq_of_testBit_eq
  intro i
  simp only [Nat.testBit_land, Nat.testBit_lor, Nat.zero_testBit]
  rcases eq_or_ne i e with rfl | hie
  · rw [Nat.testBit_two_pow_of_ne (Ne.symm h1), Nat.testBit_two_pow_of_ne (Ne.symm h2)]
    simp
  · rw [Nat.testBit_two_pow_of_ne (fun hh => hie hh.symm)]
    simp

theorem split_zero {values : List Value} {zero : Option Value}
    {runs : List (List Value)}
    (h : splitIntoBitflagRuns values = some (zero, runs)) :
    zero = values.find? (fun v => v.value == 0) := by
  have hstab := find?_zero_sortByValue values
  have hsort := pairwise_le_sortByValue values
  rcases hs : sortByValue values with _ | ⟨v0, rest⟩
  · simp only [splitIntoBitflagRuns, hs] at h
    exact Option.noConfusion h
  · rw [hs] at hstab hsort
    simp only [splitIntoBitflagRuns, hs] at h
    by_cases h0 : v0.value = 0
    · rw [if_pos h0] at h
      rcases hd : (v0 :: rest).dropWhile (fun v => v.value = 0) with _ | ⟨w0, wrest⟩
      · rw [hd] at h
        exact Option.noConfusion h
      · rw [hd] at h
        simp only [Option.some.injEq, Prod.mk.injEq] at h
        rw [← h.1, ← hstab]
        simp [List.find?_cons, h0]
    · rw [if_neg h0] at h
      simp only [Option.some.injEq, Prod.mk.injEq] at h
      rw [← h.1, ← hstab]
      refine (List.find?_eq_none.mpr ?_).symm
      intro x hx
      rcases List.mem_cons.mp hx with rfl | hx
      · simp [h0]
      · have := (List.pairwise_cons.mp hsort).1 x hx
        simp only [beq_iff_eq]
        omega

/-- C8: for every built table, decoding mask 0 returns the zero name: the name
of the first-declared zero-valued constant when one exists (`find?` on the
declaration-ordered input), else the synthesized default `typeName ++ "(0)"`. -/
theorem decode_zero {values : List Value} {tn : String} {t : Table}
    (hbuild : buildBitflagTable values tn = some t) :
    t.mstring 0 = some (match values.find? (fun v => v.value == 0) with
      | some z => z.name.data
      | none => tn.data ++ "(0)".data) := by
  obtain ⟨zero, runs, f0, r, rs, hsp, hruns, hok, hfirst, htn, hz⟩ := build_parts hbuild
  have hm : t.mstring 0 = some t.zero := by simp [Table.mstring]
  rw [hm, hz, split_zero hsp]

/-- C9: for every built table and every non-zero mask that matches no encoded
flag (in particular a mask of bits strictly inside gaps), decode returns the
bare hex fallback `typeName ++ "(0x" ++ hex(mask) ++ ")"`, unparenthesized. -/
theorem decode_gap_fallback {values : List Value} {tn : String} {t : Table} {m : Nat}
    (hbuild : buildBitflagTable values tn = some t)
    (hnames : ∀ v ∈ values, v.name ≠ "")
    (hpow : ∀ v ∈ values, v.value = 0 ∨ ∃ e, e ≤ 63 ∧ v.value = 2 ^ e)
    (hm0 : m ≠ 0)
    (hnomatch : ∀ f ∈ survivorsOf values, f.value &&& m = 0) :
    t.mstring m = some (tn.data ++ "(0x".data ++ hexChars m ++ ")".data) := by
  obtain ⟨sv, hne, hsurv, hnm, hoffs, hsks, hfirstAll, htn, hchain, hmem, _, hnz⟩ :=
    build_table_facts hbuild
  rw [hsurv] at hnomatch
  unfold Table.mstring
  rw [if_neg hm0, htn, hnm, hoffs, hsks]
  have hsim := mstringLoop_eq_walkF tn.data sv [] t.first m []
    (fun x hx => hnames x (hmem x hx))
    (survivors_powers hpow hmem hnz)
    hchain hfirstAll
  simp only [List.nil_append, List.length_nil] at hsim
  rw [hsim]
  have hwalk : walkF sv m [] (finalize tn.data) = finalize tn.data m [] := by
    have := walkF_skip [] m [] (finalize tn.data) sv hnomatch
    simpa using this
  rw [hwalk]
  simp only [finalize, if_pos rfl, hexFallback, Option.some.injEq]
  simp [List.append_assoc]

/-- C6: for any two distinct surviving flags `f, g` with `f` at the smaller bit
position, decoding `bit(f) ||| bit(g)` in either combination order yields
`"(" ++ f.name ++ "|" ++ g.name ++ ")"`. -/
theorem decode_two_flags {values : List Value} {tn : String} {t : Table} {f g : Value}
    (hbuild : buildBitflagTable values tn = some t)
    (hnames : ∀ v ∈ values, v.name ≠ "")
    (hpow : ∀ v ∈ values, v.value = 0 ∨ ∃ e, e ≤ 63 ∧ v.value = 2 ^ e)
    (hf : f ∈ survivorsOf values) (hg : g ∈ survivorsOf values)
    (hfg : f.value < g.value) :
    t.mstring (f.value ||| g.value)
        = some ('(' :: (f.name.data ++ '|' :: (g.name.data ++ [')'])))
    ∧ t.mstring (g.value ||| f.value)
        = some ('(' :: (f.name.data ++ '|' :: (g.name.data ++ [')']))) := by
  obtain ⟨sv, hne, hsurv, hnm, hoffs, hsks, hfirstAll, htn, hchain, hmem, _, hnz⟩ :=
    build_table_facts hbuild
  rw [hsurv] at hf hg
  have hpows := survivors_powers hpow hmem hnz
  obtain ⟨a, ha63, hfa⟩ := hpows f hf
  obtain ⟨c, hc63, hgc⟩ := hpows g hg
  have hac : a < c := by
    rw [hfa, hgc] at hfg
    exact (Nat.pow_lt_pow_iff_right (by omega)).mp hfg
  haveI : IsTrans Value (fun u w => u.value < w.value) :=
    ⟨fun x y z h1 h2 => lt_trans h1 h2⟩
  have hpair : sv.Pairwise (fun u w => u.value < w.value) :=
    List.chain'_iff_pairwise.mp hchain
  -- decompose the survivor list around f and g
  obtain ⟨l1, l2, hsplit⟩ := List.append_of_mem hf
  have hg2 : g ∈ l2 := by
    rw [hsplit] at hpair hg
    rcases List.mem_append.mp hg with hgl1 | hgtail
    · have := (List.pairwise_append.mp hpair).2.2 g hgl1 f (List.mem_cons_self _ _)
      omega
    · rcases List.mem_cons.mp hgtail with rfl | h2
      · omega
      · exact h2
  obtain ⟨l21, l22, hsplit2⟩ := List.append_of_mem hg2
  rw [hsplit2] at hsplit
  rw [hsplit] at hpair
  -- bit facts
  set mk := f.value ||| g.value with hmk
  have hmkfa : mk = 2 ^ a ||| 2 ^ c := by rw [hmk, hfa, hgc]
  have hfmatch : f.value &&& mk ≠ 0 := by
    rw [hfa, hmkfa, pow_land_lor_left]
    exact pow_ne_zero_nat a
  have hfxor : mk ^^^ f.value = g.value := by
    rw [hmkfa, hfa, pow_lor_xor_left (by omega : a ≠ c), hgc]
  have hmk0 : mk ≠ 0 := by
    intro h0
    apply hfmatch
    rw [h0]
    simp
  have hskip1 : ∀ x ∈ l1, x.value &&& mk = 0 := by
    intro x hx
    obtain ⟨e, he63, hxe⟩ := hpows x (by rw [hsplit]; simp [hx])
    have hxf : x.value < f.value :=
      (List.pairwise_append.mp hpair).2.2 x hx f (List.mem_cons_self _ _)
    have heac : e < a := by
      rw [hxe, hfa] at hxf
      exact (Nat.pow_lt_pow_iff_right (by omega)).mp hxf
    rw [hxe, hmkfa]
    exact pow_land_lor_ne (by omega) (by omega)
  have hskip2 : ∀ x ∈ l21, x.value &&& g.value = 0 := by
    intro x hx
    have hxsv : x ∈ sv := by rw [hsplit]; simp [hx]
    obtain ⟨e, he63, hxe⟩ := hpows x hxsv
    have hxg : x.value < g.value := by
      have hp2 := (List.pairwise_append.mp hpair).2.1
      have hp3 := (List.pairwise_cons.mp hp2).2
      exact (List.pairwise_append.mp hp3).2.2 x hx g (List.mem_cons_self _ _)
    have heac : e < c := by
      rw [hxe, hgc] at hxg
      exact (Nat.pow_lt_pow_iff_right (by omega)).mp hxg
    rw [hxe, hgc]
    exact pow_land_pow (by omega)
  have hgmatch : g.value &&& g.value ≠ 0 := by
    have hself : g.value &&& g.value = g.value := by
      apply Nat.eq_of_testBit_eq
      intro i
      simp [Nat.testBit_land]
    rw [hself, hgc]
    exact pow_ne_zero_nat c
  -- the walk
  have hwalk : walkF sv mk [] (finalize tn.data)
      = '(' :: (f.name.data ++ '|' :: (g.name.data ++ [')'])) := by
    rw [hsplit, walkF_skip _ _ _ _ l1 hskip1]
    simp only [walkF, if_neg hfmatch, if_pos rfl, hfxor]
    have hgnz : g.value ≠ 0 := hnz g hg
    rw [if_neg hgnz]
    rw [show f :: (l21 ++ g :: l22) = (f :: l21) ++ g :: l22 from rfl] at *
    rw [walkF_skip _ _ _ _ l21 hskip2]
    simp only [walkF, if_neg hgmatch, Nat.xor_self, if_pos rfl]
    simp
  constructor
  · unfold Table.mstring
    rw [if_neg hmk0, htn, hnm, hoffs, hsks]
    have hsim := mstringLoop_eq_walkF tn.data sv [] t.first mk []
      (fun x hx => hnames x (hmem x hx)) hpows hchain hfirstAll
    simp only [List.nil_append, List.length_nil] at hsim
    rw [hsim, hwalk]
  · have hcomm : g.value ||| f.value = mk := by rw [hmk, Nat.lor_comm]
    rw [hcomm]
    unfold Table.mstring
    rw [if_neg hmk0, htn, hnm, hoffs, hsks]
    have hsim := mstringLoop_eq_walkF tn.data sv [] t.first mk []
      (fun x hx => hnames x (hmem x hx)) hpows hchain hfirstAll
    simp only [List.nil_append, List.length_nil] at hsim
    rw [hsim, hwalk]

/-! ### Cache size invariants -/

theorem mapInsert_length_le (l : List (Nat × List Char)) (m : Nat) (s : List Char) :
    (mapInsert l m s).length ≤ l.length + 1 := by
  unfold mapInsert
  split
  · simp
  · simp

theorem cacheMstring_size_le {sb : Table} {c : CacheState} {m : Nat} {c' : CacheState}
    {s : List Char} (hstep : cacheMstring sb c m = some (c', s))
    (hc : cacheSize c ≤ CAP) : cacheSize c' ≤ CAP := by
  unfold cacheMstring at hstep
  split at hstep
  · simp only [Option.some.injEq, Prod.mk.injEq] at hstep
    rw [← hstep.1]
    exact hc
  · rcases hl : cacheLookup c.cached m with _ | sfound
    · rw [hl] at hstep
      rcases hms : sb.mstring m with _ | sres
      · rw [hms] at hstep
        exact Option.noConfusion hstep
      · rw [hms] at hstep
        simp only [Option.some.injEq, Prod.mk.injEq] at hstep
        rw [← hstep.1]
        rcases hcc : c.cached with _ | lst
        · simp only [cacheSize, hcc]
          have := mapInsert_length_le [] m sres
          simp only [List.length_nil] at this
          simp only [CAP] at *
          omega
        · have hsz : cacheSize c = lst.length := by simp [cacheSize, hcc]
          by_cases hcap : lst.length ≥ CAP
          · simp only [cacheSize, hcc, if_pos hcap]
            have := mapInsert_length_le [] m sres
            simp only [List.length_nil] at this
            simp only [CAP] at *
            omega
          · simp only [cacheSize, hcc, if_neg hcap]
            have := mapInsert_length_le lst m sres
            omega
    · rw [hl] at hstep
      simp only [Option.some.injEq, Prod.mk.injEq] at hstep
      rw [← hstep.1]
      exact hc

theorem runCache_size_le (sb : Table) :
    ∀ (ms : List Nat) (c : CacheState), cacheSize c ≤ CAP →
    ∀ c', runCache sb c ms = some c' → cacheSize c' ≤ CAP := by
  intro ms
  induction ms with
  | nil =>
    intro c hc c' h
    simp only [runCache, Option.some.injEq] at h
    rw [← h]
    exact hc
  | cons m ms ih =>
    intro c hc c' h
    unfold runCache at h
    rcases hstep : cacheMstring sb c m with _ | ⟨c1, s1⟩
    · rw [hstep] at h
      exact Option.noConfusion h
    · rw [hstep] at h
      exact ih c1 (cacheMstring_size_le hstep hc) c' h

theorem cacheMstring_flush {sb : Table} {c : CacheState} {m : Nat} {c' : CacheState}
    {s : List Char} (hstep : cacheMstring sb c m = some (c', s))
    (hfull : CAP ≤ cacheSize c) (hmiss : cacheLookup c.cached m = none)
    (hm0 : m ≠ 0) : cacheSize c' = 1 := by
  unfold cacheMstring at hstep
  rw [if_neg hm0, hmiss] at hstep
  rcases hms : sb.mstring m with _ | sres
  · rw [hms] at hstep
    exact Option.noConfusion hstep
  · rw [hms] at hstep
    simp only [Option.some.injEq, Prod.mk.injEq] at hstep
    rw [← hstep.1]
    rcases hcc : c.cached with _ | lst
    · rw [show cacheSize c = 0 from by simp [cacheSize, hcc]] at hfull
      simp [CAP] at hfull
    · have hcap : lst.length ≥ CAP := by
        rw [show cacheSize c = lst.length from by simp [cacheSize, hcc]] at hfull
        exact hfull
      simp only [cacheSize, hcc, if_pos hcap]
      simp [mapInsert]

/-- C7: the cache never exceeds `CAP` (256) entries along any sequence of
cached-decode calls from the initial empty state, and an insertion that finds
the cache already holding at least `CAP` entries flushes everything and leaves
exactly the one new entry (so the 257th distinct mask leaves size 1). -/
theorem cache_bounded :
    (∀ (sb : Table) (ms : List Nat) (c' : CacheState),
        runCache sb ⟨none⟩ ms = some c' → cacheSize c' ≤ CAP)
    ∧ (∀ (sb : Table) (c : CacheState) (m : Nat) (c' : CacheState) (s : List Char),
        CAP ≤ cacheSize c → cacheLookup c.cached m = none → m ≠ 0 →
        cacheMstring sb c m = some (c', s) → cacheSize c' = 1) := by
  constructor
  · intro sb ms c' h
    exact runCache_size_le sb ms ⟨none⟩ (by simp [cacheSize, CAP]) c' h
  · intro sb c m c' s hfull hmiss hm0 hstep
    exact cacheMstring_flush hstep hfull hmiss hm0

/-! ### Skips entries on single-bit inputs -/

theorem skipsFrom_bounds :
    ∀ (l : List Value) (prev : Value),
    (∀ x ∈ prev :: l, ∃ e, e ≤ 63 ∧ x.value = 2 ^ e) →
    List.Chain' (fun u w => u.value < w.value) (prev :: l) →
    ∀ k ∈ skipsFrom prev l, 1 ≤ k ∧ k ≤ 62 := by
  intro l
  induction l with
  | nil =>
    intro prev _ _ k hk
    simp [skipsFrom] at hk
  | cons w rest ih =>
    intro prev hp hc k hk
    have hp' : ∀ x ∈ w :: rest, ∃ e, e ≤ 63 ∧ x.value = 2 ^ e :=
      fun x hx => hp x (List.mem_cons_of_mem _ hx)
    have hc' : List.Chain' (fun u v => u.value < v.value) (w :: rest) := hc.tail
    simp only [skipsFrom] at hk
    split at hk
    · simp only [List.nil_append] at hk
      exact ih w hp' hc' k hk
    · rename_i hdbl
      simp only [List.singleton_append] at hk
      rcases List.mem_cons.mp hk with rfl | hk
      · obtain ⟨a, ha63, hpa⟩ := hp prev (List.mem_cons_self _ _)
        obtain ⟨c, hc63, hwc⟩ := hp w (by simp)
        have hlt : prev.value < w.value := (List.chain'_cons.mp hc).1
        have hac : a < c := by
          rw [hpa, hwc] at hlt
          exact (Nat.pow_lt_pow_iff_right (by omega)).mp hlt
        have hmodf : (prev.value * 2) % U64 = 2 ^ (a + 1) := by
          rw [hpa, ← Nat.pow_succ]
          exact Nat.mod_eq_of_lt (Nat.pow_lt_pow_right (by omega) (by omega))
        have hcge : a + 2 ≤ c := by
          by_contra hcon
          have hceq : c = a + 1 := by omega
          exact hdbl (by rw [hwc, hmodf, hceq])
        rw [hpa, hwc, shiftCount_pow hac hc63]
        omega
      · exact ih w hp' hc' k hk

/-- C10 (amended): for every built table whose input constants are single-bit
flags (or explicit zeros), every `skips` entry is at least 1, and the uint8
expression `skips[si] - 1` of the decode loop never wraps around. -/
theorem skips_entries_ge_one {values : List Value} {tn : String} {t : Table}
    (hbuild : buildBitflagTable values tn = some t)
    (hpow : ∀ v ∈ values, v.value = 0 ∨ ∃ e, e ≤ 63 ∧ v.value = 2 ^ e) :
    ∀ k ∈ t.skips, 1 ≤ k ∧ (k + 255) % 256 = k - 1 := by
  obtain ⟨sv, hne, hsurv, hnm, hoffs, hsks, hfirstAll, htn, hchain, hmem, _, hnz⟩ :=
    build_table_facts hbuild
  have hpows := survivors_powers hpow hmem hnz
  intro k hk
  rw [hsks] at hk
  rcases sv with _ | ⟨f, rest⟩
  · simp [skipsFor] at hk
  · simp only [skipsFor] at hk
    have := skipsFrom_bounds rest f hpows hchain k hk
    exact ⟨this.1, by omega⟩

/-! ### The builder's failure path kills the whole batch -/

theorem nameAndRest_long_name {runs : List (List Value)}
    (h : ∃ run ∈ runs, ∃ v ∈ run, 255 < v.name.length) :
    nameAndRest runs = .error () := by
  obtain ⟨run, hrun, v, hv, hlong⟩ := h
  unfold nameAndRest
  rw [if_neg]
  intro hall
  have := List.all_eq_true.mp hall v (List.mem_flatten.mpr ⟨run, hrun, hv⟩)
  simp at this
  omega

/-- C3 (amended): a surviving flag name longer than 255 bytes makes the
builder report the condition to stderr at table-build time and call
`os.Exit(1)`, terminating the whole generator process; since `genFile` writes
its single output file only after generating every type, a batch containing
such a type produces no output for any flag type — later types are not
processed, and even earlier types' generated tables are lost with the
unwritten file. -/
theorem long_name_aborts_batch :
    (∀ runs : List (List Value), (∃ run ∈ runs, ∃ v ∈ run, 255 < v.name.length) →
        nameAndRest runs = .error ())
    ∧ (∀ (pre : List (List Value × String)) (item : List Value × String)
          (post : List (List Value × String)),
        buildBitflagTable item.1 item.2 = none →
        genFileTables (pre ++ item :: post) = none) := by
  constructor
  · exact fun runs h => nameAndRest_long_name h
  · intro pre
    induction pre with
    | nil =>
      intro item post hfail
      obtain ⟨vals, tn⟩ := item
      simp only [List.nil_append, genFileTables]
      rw [hfail]
    | cons p pre ih =>
      intro item post hfail
      obtain ⟨vals, tn⟩ := p
      simp only [List.cons_append, genFileTables]
      rcases hb : buildBitflagTable vals tn with _ | tb
      · rfl
      · show Option.map (fun ts => tb :: ts) (genFileTables (pre ++ item :: post)) = none
        rw [ih item post hfail]
        rfl

/-! ### Concrete evaluations: code-bug exhibits, counterexamples and witnesses -/

/-- C4: evaluation of the partitioner at the failing input: on
`[{AB, 3}, {C, 4}]` the multi-bit value 3 survives as the first run's entry
(the dedupe loop starts at index 1 and never tests `values[0]`), although the
code's own comment says every multi-bit entry is removed. -/
theorem partitioner_keeps_multibit_head :
    splitIntoBitflagRuns [⟨"AB", 3⟩, ⟨"C", 4⟩]
      = some (none, [[⟨"AB", 3⟩], [⟨"C", 4⟩]])
    ∧ singleBitSet 3 = false := by decide

/-- C10 counterexample: the same multi-bit first survivor makes the builder
emit the skip entry 0 (`shiftCount(3, 4) = 1`), refuting "every skips entry is
at least 1" for raw partitioner output. -/
theorem skips_entry_zero_example :
    (buildBitflagTable [⟨"AB", 3⟩, ⟨"C", 4⟩] "T").map Table.skips = some [0]
    ∧ ¬ (∀ k ∈ [(0 : Nat)], 1 ≤ k) := by decide

/-- C3 counterexample: a batch containing a flag type with a 256-byte name
produces no output at all — neither of the other two types is processed into
any output file — while the same batch without the offending type yields both
tables; this refutes "aborts only the processing of that one flag type; other
flag types in the same batch are still processed". -/
theorem long_name_stops_batch :
    genFileTables [([⟨"A", 2⟩], "A"), ([⟨longName, 2⟩], "L"), ([⟨"B", 2⟩], "B")]
      = none
    ∧ (genFileTables [([⟨"A", 2⟩], "A"), ([⟨"B", 2⟩], "B")]).isSome = true := by
  decide

/-- C1 witness: decoding an arbitrary mask (with bits outside the Days table)
succeeds on the concrete Days table. -/
theorem decode_total_witness : ((daysTable.mstring 123456).isSome = true) :=
  @decode_total daysValues "Days" daysTable rfl (by decide) 123456

/-- C2 witness: specialized and shared-descriptor decoding agree on concrete
masks for the gap-free Days table and the with-gaps Gap table. -/
theorem shapes_agree_witness :
    stringGoNoSkips daysTable 5 = daysTable.mstring 5
    ∧ stringGoWithSkips gapTable 2052 = gapTable.mstring 2052 :=
  ⟨(@shapes_agree daysValues "Days" daysTable rfl (by decide) 5).2 rfl,
   (@shapes_agree gapValues "Gap" gapTable rfl (by decide) 2052).1⟩

/-- C5 witness: the Gap table's artifacts satisfy all three invariants. -/
theorem builder_invariants_witness :
    (([3, 5, 0, 4, 3, 5, 5, 4, 0, 6].filter (fun o => o != 0)).sum
        = "TwoThreeFiveSixSevenEightNineEleven".data.length)
    ∧ ([1, 1] : List Nat).length = [3, 5, 0, 4, 3, 5, 5, 4, 0, 6].count 0
    ∧ (gapRuns.length = 1 → ([1, 1] : List Nat) = []) :=
  @builder_invariants gapRuns "TwoThreeFiveSixSevenEightNineEleven".data
    [3, 5, 0, 4, 3, 5, 5, 4, 0, 6] [1, 1] rfl (by decide)

/-- C6 witness: `decode(1 ||| 64) = "(Monday|Sunday)"` on the Days table. -/
theorem decode_two_flags_witness :
    daysTable.mstring 65
      = some ('(' :: ("Monday".data ++ '|' :: ("Sunday".data ++ [')']))) :=
  (@decode_two_flags daysValues "Days" daysTable ⟨"Monday", 1⟩ ⟨"Sunday", 64⟩
    rfl (by decide) (by decide) (by decide) (by decide) (by decide)).1

/-- C7 witness: a two-call run keeps the cache within capacity, and an
insertion into the full 256-entry cache flushes down to exactly one entry. -/
theorem cache_bounded_witness :
    cacheSize ⟨some [(2, "Tuesday".data), (1, "Monday".data)]⟩ ≤ CAP
    ∧ cacheSize ⟨some [(1000, "(Thursday|Saturday|Sunday|Days(0x380))".data)]⟩ = 1 :=
  ⟨cache_bounded.1 daysTable [1, 2] _ (by decide),
   cache_bounded.2 daysTable fullCache 1000
     ⟨some [(1000, "(Thursday|Saturday|Sunday|Days(0x380))".data)]⟩
     ("(Thursday|Saturday|Sunday|Days(0x380))".data)
     (by decide) (by decide) (by decide) (by decide)⟩

/-- C8 witness: decode(0) is the synthesized default on Days (no explicit zero
constant) and the declared name "Zero" on Gap. -/
theorem decode_zero_witness :
    daysTable.mstring 0 = some ("Days(0)".data)
    ∧ gapTable.mstring 0 = some ("Zero".data) :=
  ⟨@decode_zero daysValues "Days" daysTable rfl,
   @decode_zero gapValues "Gap" gapTable rfl⟩

/-- C9 witness: `decode(1 <<< 4) = "Gap(0x10)"` — bit 4 sits in the gap of the
Gap table. -/
theorem decode_gap_fallback_witness :
    gapTable.mstring 16 = some ("Gap(0x10)".data) :=
  @decode_gap_fallback gapValues "Gap" gapTable 16 rfl (by decide)
    (by decide) (by decide) (by decide)

/-- C10 witness: both Gap-table skip entries equal 1, and `1 - 1` in uint8 does
not wrap. -/
theorem skips_entries_ge_one_witness :
    1 ≤ 1 ∧ (1 + 255) % 256 = 1 - 1 :=
  @skips_entries_ge_one gapValues "Gap" gapTable rfl (by decide) 1
    (by decide)

/-- C3 (amended) witness: the long-name builder run errors out, and a batch
with the failing type after one good type writes nothing. -/
theorem long_name_aborts_batch_witness :
    nameAndRest [[⟨longName, 4⟩]] = .error ()
    ∧ genFileTables [([⟨"C", 2⟩], "C"), ([⟨longName, 4⟩], "L")] = none :=
  ⟨long_name_aborts_batch.1 _
      ⟨[⟨longName, 4⟩], by simp, ⟨longName, 4⟩, by simp, by decide⟩,
   long_name_aborts_batch.2 [([⟨"C", 2⟩], "C")] ([⟨longName, 4⟩], "L")
     [] (by decide)⟩

end Bitflag
